import Mathlib

/-!
# Verification of the SpacetimeDB benchmark module

A shallow embedding of `src/spacetimedb-project/src/lib.rs`: the three table
types (`Counter`, `Message`, `Event`), the table-store operations the module
relies on (insert with unique-key check and auto-increment assignment, delete
by key, scan), and the five reducers (`increment_counter`, `create_message`,
`create_event`, `init`, `on_module_update`).

Modelling conventions:
* A table is a `List` of rows; `scan` is the list itself, in insertion order
  (the spec leaves scan order unspecified; the reducers only use `find`-style
  scans, which we embed literally).
* `Timestamp` is opaque to the module; we model it as `Nat`.  The transaction
  executor binds one timestamp per invocation (`ctx.timestamp`); each embedded
  reducer takes that bound timestamp as its first argument.
* Rust `i64` values are `Int` together with the explicit two's-complement
  wrap `wrap64`; the module's `counter.value + amount` is an unchecked `i64`
  addition, which in a release build wraps modulo 2^64.
* Rust `u64` ids are `Nat`; the auto-increment allocator hands out
  `1, 2, 3, ...` per table, far below the `u64` bound.
* Fallible table-store operations return `Except DBError`; a reducer
  invocation that fails aborts its transaction, leaving the database
  unchanged (see `step`).
-/

namespace SpacetimeBench

/-- Timestamps are opaque host values bound once per transaction. -/
abbrev Timestamp := Nat

/-- The signed 64-bit range used by `Counter.value`. -/
def InRange64 (x : Int) : Prop := -(2 ^ 63) ≤ x ∧ x < 2 ^ 63

instance (x : Int) : Decidable (InRange64 x) := by
  unfold InRange64; infer_instance

/-- Two's-complement wrap of an integer into the signed 64-bit range,
the behaviour of unchecked `i64` addition in a Rust release build. -/
def wrap64 (x : Int) : Int := (x + 2 ^ 63) % 2 ^ 64 - 2 ^ 63

/-- Counters table row: `name` (primary key), `value : i64`, `last_updated`. -/
structure Counter where
  name : String
  value : Int
  last_updated : Timestamp
deriving Repr, DecidableEq

/-- Messages table row: auto-increment primary key `id : u64`, then
`sender`, `content`, `channel`, `timestamp`. -/
structure Message where
  id : Nat
  sender : String
  content : String
  channel : String
  timestamp : Timestamp
deriving Repr, DecidableEq

/-- Events table row: auto-increment primary key `id : u64`, then
`event_type`, `source`, `data`, `timestamp`. -/
structure Event where
  id : Nat
  event_type : String
  source : String
  data : String
  timestamp : Timestamp
deriving Repr, DecidableEq

/-- Errors of the table store / transaction executor taxonomy. -/
inductive DBError where
  | UniqueConstraintViolation
  | NotFound
  | CounterOverflow
  | ReducerError
deriving Repr, DecidableEq

/-- The whole database: one list per table, plus, per auto-increment table,
the next-free id counter owned by the table store (tracked as table state,
not derived from existing rows). -/
structure DB where
  counters : List Counter
  messages : List Message
  events : List Event
  nextMessageId : Nat
  nextEventId : Nat
deriving Repr, DecidableEq

/-- The empty database as first published: no rows, both auto-increment
allocators at their starting value 1. -/
def initDB : DB :=
  { counters := [], messages := [], events := [], nextMessageId := 1, nextEventId := 1 }

/-- Modelled from the spec: table-store `insert` for the Counter table —
fails with `UniqueConstraintViolation` if the primary key `name` already
exists, else appends the row. -/
def counterInsert (tbl : List Counter) (row : Counter) : Except DBError (List Counter) :=
  if tbl.any (fun c => c.name == row.name) then .error .UniqueConstraintViolation
  else .ok (tbl ++ [row])

/-- Modelled from the spec: table-store `delete(row_or_key)` for the Counter
table — removes the row with the given primary key.  The reducer only calls
it on a row it has just found, so the `NotFound` branch is unreachable and
we model the removal directly. -/
def counterDelete (tbl : List Counter) (key : String) : List Counter :=
  tbl.filter (fun c => !(c.name == key))

/-- Modelled from the spec: auto-increment table-store `insert` for the
Message table.  A placeholder id of 0 is overwritten with the next-free id;
an explicit id that collides with an existing row fails with
`UniqueConstraintViolation`; the next-free counter always moves past the
assigned id so ids are never reused. -/
def messageInsert (db : DB) (row : Message) : Except DBError DB :=
  let assigned := if row.id = 0 then db.nextMessageId else row.id
  if db.messages.any (fun m => m.id == assigned) then .error .UniqueConstraintViolation
  else .ok { db with
    messages := db.messages ++ [{ row with id := assigned }],
    nextMessageId := max db.nextMessageId (assigned + 1) }

/-- Modelled from the spec: auto-increment table-store `insert` for the
Event table, same contract as `messageInsert`. -/
def eventInsert (db : DB) (row : Event) : Except DBError DB :=
  let assigned := if row.id = 0 then db.nextEventId else row.id
  if db.events.any (fun e => e.id == assigned) then .error .UniqueConstraintViolation
  else .ok { db with
    events := db.events ++ [{ row with id := assigned }],
    nextEventId := max db.nextEventId (assigned + 1) }

/-- Reducer `increment_counter(name, amount)`, embedded from the source:
scan the Counter table for a row with `c.name == name`; if found, compute
`new_value = counter.value + amount` (unchecked `i64` addition: two's
complement wrap), delete the old row and insert the updated one; if not
found, insert a fresh row with `value = amount`.  All rows written carry the
transaction's bound timestamp. -/
def increment_counter (ts : Timestamp) (name : String) (amount : Int) (db : DB) :
    Except DBError DB :=
  let counters := db.counters
  match counters.find? (fun c => c.name == name) with
  | some counter =>
    let new_value := wrap64 (counter.value + amount)
    let afterDelete := counterDelete counters counter.name
    (counterInsert afterDelete
      { name := name, value := new_value, last_updated := ts }).map
      (fun tbl => { db with counters := tbl })
  | none =>
    (counterInsert counters
      { name := name, value := amount, last_updated := ts }).map
      (fun tbl => { db with counters := tbl })

/-- Reducer `create_message(sender, content, channel)`, embedded from the
source: insert a Message row with placeholder id 0 (auto-generated) and the
transaction's bound timestamp. -/
def create_message (ts : Timestamp) (sender content channel : String) (db : DB) :
    Except DBError DB :=
  messageInsert db
    { id := 0, sender := sender, content := content, channel := channel, timestamp := ts }

/-- Reducer `create_event(event_type, source, data)`, embedded from the
source: insert an Event row with placeholder id 0 (auto-generated) and the
transaction's bound timestamp. -/
def create_event (ts : Timestamp) (event_type source data : String) (db : DB) :
    Except DBError DB :=
  eventInsert db
    { id := 0, event_type := event_type, source := source, data := data, timestamp := ts }

/-- Lifecycle reducer `init`: no table mutation. -/
def init (db : DB) : Except DBError DB := .ok db

/-- Lifecycle reducer `on_module_update`: no table mutation. -/
def on_module_update (db : DB) : Except DBError DB := .ok db

/-- One reducer invocation: which reducer, with which arguments. -/
inductive Op where
  | inc (name : String) (amount : Int)
  | msg (sender content channel : String)
  | ev (event_type source data : String)
  | lifecycleInit
  | lifecycleUpdate
deriving Repr, DecidableEq

/-- Dispatch one invocation with its transaction-bound timestamp. -/
def execOp (ts : Timestamp) (op : Op) (db : DB) : Except DBError DB :=
  match op with
  | .inc n a => increment_counter ts n a db
  | .msg s c ch => create_message ts s c ch db
  | .ev t s d => create_event ts t s d db
  | .lifecycleInit => init db
  | .lifecycleUpdate => on_module_update db

/-- Transaction-executor semantics of one invocation: on success the writes
commit; on failure the transaction aborts and no partial state is visible. -/
def step (ts : Timestamp) (op : Op) (db : DB) : DB :=
  match execOp ts op db with
  | .ok db2 => db2
  | .error _ => db

/-- Serialized execution of a sequence of invocations, each with its bound
timestamp; invocations execute one at a time (the executor's serializable,
non-overlapping contract), and a failed invocation aborts alone. -/
def execOps : List (Timestamp × Op) → DB → DB
  | [], db => db
  | (ts, op) :: rest, db => execOps rest (step ts op db)

/-- Scan the Counter table for all rows with the given name. -/
def counterRows (db : DB) (n : String) : List Counter :=
  db.counters.filter (fun c => c.name == n)

/-- The value of the counter named `n`, if a row for it exists (first match
in scan order, exactly the lookup `increment_counter` performs). -/
def counterValue (db : DB) (n : String) : Option Int :=
  (db.counters.find? (fun c => c.name == n)).map (fun c => c.value)

/-- The Counter-table key invariant: at most one live row per `name`. -/
def AtMostOne (tbl : List Counter) : Prop :=
  (tbl.map (fun c => c.name)).Nodup

/-- All counter values lie in the signed 64-bit range (true of every
reachable state, since values are `i64` in the source). -/
def ValuesOk (tbl : List Counter) : Prop :=
  ∀ c ∈ tbl, InRange64 c.value

/-- Well-formedness of the Counter table. -/
def CounterWF (db : DB) : Prop :=
  AtMostOne db.counters ∧ ValuesOk db.counters

/-- Message-table id freshness: every live id is below the next-free id. -/
def MsgFresh (db : DB) : Prop :=
  ∀ m ∈ db.messages, m.id < db.nextMessageId

/-- Event-table id freshness: every live id is below the next-free id. -/
def EvFresh (db : DB) : Prop :=
  ∀ e ∈ db.events, e.id < db.nextEventId

/-- Modelled from the spec: `find(key)` — point lookup by primary key,
returning the unique live row with that key if the keyed table holds one.
This is the intended-design lookup that `increment_counter`'s scan-plus-find
is compared against in the refinement claim. -/
def counterFind (tbl : List Counter) (key : String) : Option Counter :=
  match tbl.filter (fun c => c.name == key) with
  | [r] => some r
  | _ => none

instance (tbl : List Counter) : Decidable (AtMostOne tbl) := by
  unfold AtMostOne; infer_instance

instance (tbl : List Counter) : Decidable (ValuesOk tbl) := by
  unfold ValuesOk; infer_instance

instance (db : DB) : Decidable (CounterWF db) := by
  unfold CounterWF; infer_instance

instance (db : DB) : Decidable (MsgFresh db) := by
  unfold MsgFresh; infer_instance

instance (db : DB) : Decidable (EvFresh db) := by
  unfold EvFresh; infer_instance

/-- The amount an invocation contributes to the counter named `n`. -/
def incContribution (n : String) (p : Timestamp × Op) : Int :=
  match p.2 with
  | .inc m a => if m = n then a else 0
  | _ => 0

/-- The sum of all amounts the sequence applies to the counter named `n`. -/
def sumAmounts (n : String) (ops : List (Timestamp × Op)) : Int :=
  (ops.map (incContribution n)).sum

/-- Whether an invocation is an `increment_counter` call on `n`. -/
def isIncOn (n : String) (p : Timestamp × Op) : Bool :=
  match p.2 with
  | .inc m _ => m == n
  | _ => false

/-- Whether the sequence contains any `increment_counter` call on `n`. -/
def hasInc (n : String) (ops : List (Timestamp × Op)) : Bool :=
  ops.any (isIncOn n)

/-- All increment amounts in the sequence are `i64` values (true of every
sequence a caller can submit, since the reducer argument has type `i64`). -/
def AmountsOk (ops : List (Timestamp × Op)) : Prop :=
  ∀ p ∈ ops, ∀ m a, p.2 = Op.inc m a → InRange64 a

/-- Whether an invocation is a `create_message` call. -/
def isMsgOp : Op → Bool
  | .msg _ _ _ => true
  | _ => false

/-- Whether an invocation is a `create_event` call. -/
def isEvOp : Op → Bool
  | .ev _ _ _ => true
  | _ => false

/-- Number of `create_message` invocations in the sequence. -/
def countMsg (ops : List (Timestamp × Op)) : Nat :=
  ops.countP (fun p => isMsgOp p.2)

/-- Number of `create_event` invocations in the sequence. -/
def countEv (ops : List (Timestamp × Op)) : Nat :=
  ops.countP (fun p => isEvOp p.2)

/-- The Message table's ids are exactly `1, 2, ..., len` in insertion order
and the allocator sits one past the end: the state every run reaches. -/
def MsgIdsSeq (db : DB) : Prop :=
  db.messages.map (fun m => m.id) = List.range' 1 db.messages.length ∧
    db.nextMessageId = db.messages.length + 1

/-- The Event table's ids are exactly `1, 2, ..., len` in insertion order. -/
def EvIdsSeq (db : DB) : Prop :=
  db.events.map (fun e => e.id) = List.range' 1 db.events.length ∧
    db.nextEventId = db.events.length + 1

/-! ## Arithmetic facts about the two's-complement wrap -/

theorem wrap64_wrap64_add (x y : Int) : wrap64 (wrap64 x + y) = wrap64 (x + y) := by
  unfold wrap64
  omega

theorem wrap64_eq_self {x : Int} (h : InRange64 x) : wrap64 x = x := by
  unfold wrap64
  unfold InRange64 at h
  omega

theorem inRange64_wrap64 (x : Int) : InRange64 (wrap64 x) := by
  unfold wrap64 InRange64
  constructor <;> omega

theorem wrap64_ne_self {x : Int} (h : ¬ InRange64 x) : wrap64 x ≠ x := by
  intro he
  exact h (he ▸ inRange64_wrap64 x)

/-! ## Characterizing one `increment_counter` invocation -/

theorem name_of_find?_counter {tbl : List Counter} {n : String} {c : Counter}
    (h : tbl.find? (fun c => c.name == n) = some c) : c.name = n := by
  have := List.find?_some h
  simpa using this

theorem counterDelete_no_key (tbl : List Counter) (n : String) :
    (counterDelete tbl n).any (fun c => c.name == n) = false := by
  rw [List.any_eq_false]
  intro c hc
  rcases List.mem_filter.mp hc with ⟨_, hkeep⟩
  simpa using hkeep

/-- Found branch: the call commits; the old key is deleted and the row with
the wrapped new value and the bound timestamp is inserted. -/
theorem increment_counter_found {db : DB} {n : String} {c : Counter}
    (h : db.counters.find? (fun c => c.name == n) = some c) (ts : Timestamp) (a : Int) :
    increment_counter ts n a db =
      .ok { db with counters :=
        counterDelete db.counters n ++ [⟨n, wrap64 (c.value + a), ts⟩] } := by
  have hn : c.name = n := name_of_find?_counter h
  simp only [increment_counter, h, hn, counterInsert, counterDelete_no_key,
    Bool.false_eq_true, if_false, Except.map]

/-- Not-found branch: the call commits; a fresh row with `value = amount`
and the bound timestamp is appended. -/
theorem increment_counter_notfound {db : DB} {n : String}
    (h : db.counters.find? (fun c => c.name == n) = none) (ts : Timestamp) (a : Int) :
    increment_counter ts n a db =
      .ok { db with counters := db.counters ++ [⟨n, a, ts⟩] } := by
  have hany : db.counters.any (fun c => c.name == n) = false := by
    rw [List.any_eq_false]
    intro c hc
    exact List.find?_eq_none.mp h c hc
  simp only [increment_counter, h, counterInsert, hany, Bool.false_eq_true, if_false,
    Except.map]

theorem find?_counterDelete_other {tbl : List Counter} {n m : String} (hne : m ≠ n) :
    (counterDelete tbl n).find? (fun c => c.name == m) =
      tbl.find? (fun c => c.name == m) := by
  unfold counterDelete
  rw [List.find?_filter]
  congr 1
  funext c
  by_cases hc : c.name = m
  · simp [hc, hne]
  · simp [hc]

/-- After `increment_counter` on a found row `c`, the value of `n` is the
wrapped sum. -/
theorem counterValue_step_inc_found {db : DB} {n : String} {c : Counter}
    (h : db.counters.find? (fun c => c.name == n) = some c) (ts : Timestamp) (a : Int) :
    counterValue (step ts (.inc n a) db) n = some (wrap64 (c.value + a)) := by
  simp only [step, execOp]
  rw [increment_counter_found h ts a]
  unfold counterValue
  simp only [List.find?_append]
  have h1 : (counterDelete db.counters n).find? (fun c => c.name == n) = none := by
    rw [List.find?_eq_none]
    intro x hx
    rcases List.mem_filter.mp hx with ⟨_, hkeep⟩
    simpa using hkeep
  rw [h1]
  simp [List.find?]

/-- After `increment_counter` on an absent key, the value of `n` is the raw
amount. -/
theorem counterValue_step_inc_notfound {db : DB} {n : String}
    (h : db.counters.find? (fun c => c.name == n) = none) (ts : Timestamp) (a : Int) :
    counterValue (step ts (.inc n a) db) n = some a := by
  simp only [step, execOp]
  rw [increment_counter_notfound h ts a]
  unfold counterValue
  simp only [List.find?_append, h]
  simp [List.find?]

/-- `increment_counter` on `n` does not change the value of any other name. -/
theorem counterValue_step_inc_other {db : DB} {n m : String} (hne : m ≠ n)
    (ts : Timestamp) (a : Int) :
    counterValue (step ts (.inc n a) db) m = counterValue db m := by
  have hnm : (n == m) = false := by
    simp only [beq_eq_false_iff_ne, ne_eq]
    intro h
    exact hne h.symm
  simp only [step, execOp]
  rcases hf : db.counters.find? (fun c => c.name == n) with _ | c
  · rw [increment_counter_notfound hf ts a]
    unfold counterValue
    simp only [List.find?_append]
    have h2 : List.find? (fun c => c.name == m) [(⟨n, a, ts⟩ : Counter)] = none := by
      simp [List.find?, hnm]
    rw [h2]
    simp
  · rw [increment_counter_found hf ts a]
    unfold counterValue
    simp only [List.find?_append]
    have h2 : List.find? (fun c => c.name == m)
        [(⟨n, wrap64 (c.value + a), ts⟩ : Counter)] = none := by
      simp [List.find?, hnm]
    rw [h2, find?_counterDelete_other hne]
    simp

/-- A committed `create_message` changes only the Message table and its
allocator. -/
theorem create_message_ok_frame {ts : Timestamp} {s c ch : String} {db db2 : DB}
    (h : create_message ts s c ch db = .ok db2) :
    db2.counters = db.counters ∧ db2.events = db.events ∧
      db2.nextEventId = db.nextEventId := by
  simp only [create_message, messageInsert, reduceIte] at h
  split at h
  · exact Except.noConfusion h
  · injection h with h2
    subst h2
    exact ⟨rfl, rfl, rfl⟩

/-- A committed `create_event` changes only the Event table and its
allocator. -/
theorem create_event_ok_frame {ts : Timestamp} {t s d : String} {db db2 : DB}
    (h : create_event ts t s d db = .ok db2) :
    db2.counters = db.counters ∧ db2.messages = db.messages ∧
      db2.nextMessageId = db.nextMessageId := by
  simp only [create_event, eventInsert, reduceIte] at h
  split at h
  · exact Except.noConfusion h
  · injection h with h2
    subst h2
    exact ⟨rfl, rfl, rfl⟩

/-- A committed `increment_counter` changes only the Counter table. -/
theorem increment_counter_ok_frame {ts : Timestamp} {n : String} {a : Int} {db db2 : DB}
    (h : increment_counter ts n a db = .ok db2) :
    db2.messages = db.messages ∧ db2.events = db.events ∧
      db2.nextMessageId = db.nextMessageId ∧ db2.nextEventId = db.nextEventId := by
  simp only [increment_counter, counterInsert, Except.map] at h
  rcases hf : db.counters.find? (fun c => c.name == n) with _ | c <;> rw [hf] at h <;>
    dsimp only at h <;> split at h
  · exact Except.noConfusion h
  · injection h with h2
    subst h2
    exact ⟨rfl, rfl, rfl, rfl⟩
  · exact Except.noConfusion h
  · injection h with h2
    subst h2
    exact ⟨rfl, rfl, rfl, rfl⟩

/-- Reducers other than `increment_counter` leave the Counter table alone. -/
theorem counters_step_nonInc {ts : Timestamp} {op : Op} {db : DB}
    (h : ∀ n a, op ≠ .inc n a) : (step ts op db).counters = db.counters := by
  unfold step
  rcases he : execOp ts op db with e | db2
  · rfl
  · cases op with
    | inc n a => exact absurd rfl (h n a)
    | msg s c ch => exact (create_message_ok_frame he).1
    | ev t s d => exact (create_event_ok_frame he).1
    | lifecycleInit =>
      simp only [execOp, init] at he
      injection he with h2
      rw [← h2]
    | lifecycleUpdate =>
      simp only [execOp, on_module_update] at he
      injection he with h2
      rw [← h2]

/-! ## Preservation of the Counter-table invariants -/

theorem AtMostOne_counterDelete {tbl : List Counter} (h : AtMostOne tbl) (n : String) :
    AtMostOne (counterDelete tbl n) := by
  unfold AtMostOne counterDelete at *
  exact List.Nodup.sublist (List.Sublist.map _ (List.filter_sublist tbl)) h

theorem notMem_counterDelete (tbl : List Counter) (n : String) :
    n ∉ (counterDelete tbl n).map (fun c => c.name) := by
  intro hmem
  rcases List.mem_map.mp hmem with ⟨c, hc, hcn⟩
  rcases List.mem_filter.mp hc with ⟨_, hkeep⟩
  rw [hcn] at hkeep
  simp at hkeep

theorem counterValue_eq_none_iff {db : DB} {n : String} :
    counterValue db n = none ↔ db.counters.find? (fun c => c.name == n) = none := by
  unfold counterValue
  exact Option.map_eq_none'

theorem counterValue_eq_some {db : DB} {n : String} {v : Int}
    (h : counterValue db n = some v) :
    ∃ c, db.counters.find? (fun c => c.name == n) = some c ∧ c.value = v := by
  unfold counterValue at h
  exact Option.map_eq_some'.mp h

theorem value_inRange_of_counterValue {db : DB} {n : String} {v : Int}
    (h : CounterWF db) (hv : counterValue db n = some v) : InRange64 v := by
  rcases counterValue_eq_some hv with ⟨c, hc, hcv⟩
  have hmem : c ∈ db.counters := List.mem_of_find?_eq_some hc
  exact hcv ▸ h.2 c hmem

theorem AtMostOne_step_inc {db : DB} {n : String} (h : AtMostOne db.counters)
    (ts : Timestamp) (a : Int) : AtMostOne (step ts (.inc n a) db).counters := by
  simp only [step, execOp]
  rcases hf : db.counters.find? (fun c => c.name == n) with _ | c
  · rw [increment_counter_notfound hf ts a]
    unfold AtMostOne
    rw [List.map_append, List.nodup_append]
    refine ⟨h, by simp, ?_⟩
    intro x hx hx1
    simp only [List.map_cons, List.map_nil, List.mem_cons, List.not_mem_nil,
      or_false] at hx1
    subst hx1
    rcases List.mem_map.mp hx with ⟨c, hc, hcn⟩
    have := List.find?_eq_none.mp hf c hc
    rw [hcn] at this
    simp at this
  · rw [increment_counter_found hf ts a]
    unfold AtMostOne
    rw [List.map_append, List.nodup_append]
    refine ⟨AtMostOne_counterDelete h n, by simp, ?_⟩
    intro x hx hx1
    simp only [List.map_cons, List.map_nil, List.mem_cons, List.not_mem_nil,
      or_false] at hx1
    exact notMem_counterDelete db.counters n (hx1 ▸ hx)

theorem ValuesOk_counterDelete {tbl : List Counter} (h : ValuesOk tbl) (n : String) :
    ValuesOk (counterDelete tbl n) := by
  intro c hc
  exact h c (List.mem_filter.mp hc).1

theorem ValuesOk_step_inc {db : DB} {n : String} {a : Int} (h : ValuesOk db.counters)
    (ha : InRange64 a) (ts : Timestamp) : ValuesOk (step ts (.inc n a) db).counters := by
  simp only [step, execOp]
  rcases hf : db.counters.find? (fun c => c.name == n) with _ | c
  · rw [increment_counter_notfound hf ts a]
    intro x hx
    rcases List.mem_append.mp hx with hx | hx
    · exact h x hx
    · simp only [List.mem_cons, List.not_mem_nil, or_false] at hx
      subst hx
      exact ha
  · rw [increment_counter_found hf ts a]
    intro x hx
    rcases List.mem_append.mp hx with hx | hx
    · exact ValuesOk_counterDelete h n x hx
    · simp only [List.mem_cons, List.not_mem_nil, or_false] at hx
      subst hx
      exact inRange64_wrap64 _

/-- Every reducer invocation preserves well-formedness of the Counter table
(for `increment_counter` the amount is an `i64`, i.e. in range). -/
theorem CounterWF_step {ts : Timestamp} {op : Op} {db : DB} (h : CounterWF db)
    (ha : ∀ m a, op = .inc m a → InRange64 a) : CounterWF (step ts op db) := by
  cases hop : op with
  | inc m a =>
    exact ⟨AtMostOne_step_inc h.1 ts a, ValuesOk_step_inc h.2 (ha m a hop) ts⟩
  | msg s c ch =>
    have he := @counters_step_nonInc ts (.msg s c ch) db (by simp)
    unfold CounterWF
    rw [he]
    exact h
  | ev t s d =>
    have he := @counters_step_nonInc ts (.ev t s d) db (by simp)
    unfold CounterWF
    rw [he]
    exact h
  | lifecycleInit =>
    have he := @counters_step_nonInc ts .lifecycleInit db (by simp)
    unfold CounterWF
    rw [he]
    exact h
  | lifecycleUpdate =>
    have he := @counters_step_nonInc ts .lifecycleUpdate db (by simp)
    unfold CounterWF
    rw [he]
    exact h

/-! ## Accumulated increments over a sequence of invocations -/

theorem sumAmounts_nil (n : String) : sumAmounts n [] = 0 := rfl

theorem sumAmounts_cons (n : String) (p : Timestamp × Op) (ops : List (Timestamp × Op)) :
    sumAmounts n (p :: ops) = incContribution n p + sumAmounts n ops := by
  unfold sumAmounts
  rw [List.map_cons, List.sum_cons]

theorem hasInc_cons (n : String) (p : Timestamp × Op) (ops : List (Timestamp × Op)) :
    hasInc n (p :: ops) = (isIncOn n p || hasInc n ops) := by
  simp [hasInc]

theorem counterValue_congr {db db2 : DB} (h : db2.counters = db.counters) (n : String) :
    counterValue db2 n = counterValue db n := by
  unfold counterValue
  rw [h]

/-- Master accumulation lemma: running a sequence of invocations moves the
counter named `n` from its starting value by the wrapped sum of all amounts
applied to `n`; a counter never touched stays absent. -/
theorem execOps_counterValue (n : String) :
    ∀ (ops : List (Timestamp × Op)) (db : DB), CounterWF db → AmountsOk ops →
    counterValue (execOps ops db) n =
      match counterValue db n with
      | some v => some (wrap64 (v + sumAmounts n ops))
      | none => if hasInc n ops then some (wrap64 (sumAmounts n ops)) else none
  | [], db, hwf, _ => by
    rcases hv : counterValue db n with _ | v
    · simp [execOps, hasInc, hv]
    · have hrange := value_inRange_of_counterValue hwf hv
      simp [execOps, hv, sumAmounts_nil, wrap64_eq_self hrange]
  | (ts, op) :: rest, db, hwf, hao => by
    have haoRest : AmountsOk rest := fun p hp => hao p (List.mem_cons_of_mem _ hp)
    have haoHead : ∀ m a, op = Op.inc m a → InRange64 a :=
      fun m a hop => hao (ts, op) (List.mem_cons_self _ _) m a hop
    have hwf2 : CounterWF (step ts op db) := CounterWF_step hwf haoHead
    have IH := execOps_counterValue n rest (step ts op db) hwf2 haoRest
    rw [show execOps ((ts, op) :: rest) db = execOps rest (step ts op db) from rfl]
    cases hop : op with
    | inc m a =>
      subst hop
      by_cases hmn : m = n
      · subst m
        rcases hv : counterValue db n with _ | v
        · have hf : db.counters.find? (fun c => c.name == n) = none :=
            counterValue_eq_none_iff.mp hv
          rw [counterValue_step_inc_notfound hf ts a] at IH
          rw [IH]
          have hhead : isIncOn n (ts, Op.inc n a) = true := by
            simp [isIncOn]
          have hcontrib : incContribution n (ts, Op.inc n a) = a := by
            simp [incContribution]
          simp only [hv, hasInc_cons, hhead, Bool.true_or, if_true, sumAmounts_cons,
            hcontrib]
        · rcases counterValue_eq_some hv with ⟨c, hf, hcv⟩
          rw [counterValue_step_inc_found hf ts a] at IH
          rw [IH]
          have hcontrib : incContribution n (ts, Op.inc n a) = a := by
            simp [incContribution]
          simp only [hv, sumAmounts_cons, hcontrib]
          rw [hcv, wrap64_wrap64_add, add_assoc]
      · have hstep := @counterValue_step_inc_other db m n (fun h : n = m => hmn h.symm) ts a
        rw [hstep] at IH
        rw [IH]
        have hcontrib : incContribution n (ts, Op.inc m a) = 0 := by
          simp [incContribution, hmn]
        have hhead : isIncOn n (ts, Op.inc m a) = false := by
          simp [isIncOn, hmn]
        simp only [sumAmounts_cons, hcontrib, zero_add, hasInc_cons, hhead,
          Bool.false_or]
    | msg s c ch =>
      subst hop
      have he := @counters_step_nonInc ts (.msg s c ch) db (by simp)
      rw [counterValue_congr he n] at IH
      rw [IH]
      have hcontrib : incContribution n (ts, Op.msg s c ch) = 0 := rfl
      have hhead : isIncOn n (ts, Op.msg s c ch) = false := rfl
      simp only [sumAmounts_cons, hcontrib, zero_add, hasInc_cons, hhead, Bool.false_or]
    | ev t s d =>
      subst hop
      have he := @counters_step_nonInc ts (.ev t s d) db (by simp)
      rw [counterValue_congr he n] at IH
      rw [IH]
      have hcontrib : incContribution n (ts, Op.ev t s d) = 0 := rfl
      have hhead : isIncOn n (ts, Op.ev t s d) = false := rfl
      simp only [sumAmounts_cons, hcontrib, zero_add, hasInc_cons, hhead, Bool.false_or]
    | lifecycleInit =>
      subst hop
      have he := @counters_step_nonInc ts .lifecycleInit db (by simp)
      rw [counterValue_congr he n] at IH
      rw [IH]
      have hcontrib : incContribution n (ts, Op.lifecycleInit) = 0 := rfl
      have hhead : isIncOn n (ts, Op.lifecycleInit) = false := rfl
      simp only [sumAmounts_cons, hcontrib, zero_add, hasInc_cons, hhead, Bool.false_or]
    | lifecycleUpdate =>
      subst hop
      have he := @counters_step_nonInc ts .lifecycleUpdate db (by simp)
      rw [counterValue_congr he n] at IH
      rw [IH]
      have hcontrib : incContribution n (ts, Op.lifecycleUpdate) = 0 := rfl
      have hhead : isIncOn n (ts, Op.lifecycleUpdate) = false := rfl
      simp only [sumAmounts_cons, hcontrib, zero_add, hasInc_cons, hhead, Bool.false_or]

/-! ## Permutation invariance of the accumulated increments -/

theorem sumAmounts_perm {ops1 ops2 : List (Timestamp × Op)} (h : ops1.Perm ops2)
    (n : String) : sumAmounts n ops1 = sumAmounts n ops2 :=
  (h.map (incContribution n)).sum_eq

theorem hasInc_perm {ops1 ops2 : List (Timestamp × Op)} (h : ops1.Perm ops2)
    (n : String) : hasInc n ops1 = hasInc n ops2 := by
  unfold hasInc
  rw [Bool.eq_iff_iff, List.any_eq_true, List.any_eq_true]
  constructor
  · rintro ⟨x, hx, hxi⟩
    exact ⟨x, h.mem_iff.mp hx, hxi⟩
  · rintro ⟨x, hx, hxi⟩
    exact ⟨x, h.mem_iff.mpr hx, hxi⟩

theorem AmountsOk_perm {ops1 ops2 : List (Timestamp × Op)} (h : ops1.Perm ops2)
    (ha : AmountsOk ops1) : AmountsOk ops2 :=
  fun p hp => ha p (h.mem_iff.mpr hp)

/-! ## Point lookup by a known member -/

theorem find?_of_mem_nodup {tbl : List Counter} {c : Counter} (h : AtMostOne tbl)
    (hmem : c ∈ tbl) : tbl.find? (fun x => x.name == c.name) = some c := by
  induction tbl with
  | nil => cases hmem
  | cons hd tl ih =>
    unfold AtMostOne at h
    rw [List.map_cons, List.nodup_cons] at h
    rcases List.mem_cons.mp hmem with rfl | hmem2
    · rw [List.find?_cons_of_pos _ (by simp)]
    · have hne : (hd.name == c.name) = false := by
        simp only [beq_eq_false_iff_ne, ne_eq]
        intro he
        exact h.1 (he ▸ List.mem_map_of_mem (fun x => x.name) hmem2)
      rw [List.find?_cons_of_neg _ (by simp [hne])]
      exact ih h.2 hmem2

theorem filter_counterDelete_self (tbl : List Counter) (n : String) :
    (counterDelete tbl n).filter (fun c => c.name == n) = [] := by
  rw [List.filter_eq_nil_iff]
  intro c hc
  rcases List.mem_filter.mp hc with ⟨_, hkeep⟩
  simpa using hkeep

/-! ## The append-only tables and their auto-increment ids -/

/-- Under id freshness, `create_message` always commits: it appends exactly
one row carrying the arguments verbatim and the bound timestamp, with the
next-free id assigned in place of the placeholder, and bumps the allocator. -/
theorem create_message_fresh_ok {db : DB} (h : MsgFresh db) (ts : Timestamp)
    (s c ch : String) :
    create_message ts s c ch db = .ok { db with
      messages := db.messages ++
        [⟨db.nextMessageId, s, c, ch, ts⟩],
      nextMessageId := db.nextMessageId + 1 } := by
  have hany : (db.messages.any fun m => m.id == db.nextMessageId) = false := by
    rw [List.any_eq_false]
    intro m hm
    have := h m hm
    simp only [beq_iff_eq]
    omega
  simp only [create_message, messageInsert, reduceIte, hany, Bool.false_eq_true,
    if_false]
  rw [Nat.max_eq_right (Nat.le_succ _)]

/-- Under id freshness, `create_event` always commits, symmetrically. -/
theorem create_event_fresh_ok {db : DB} (h : EvFresh db) (ts : Timestamp)
    (t s d : String) :
    create_event ts t s d db = .ok { db with
      events := db.events ++
        [⟨db.nextEventId, t, s, d, ts⟩],
      nextEventId := db.nextEventId + 1 } := by
  have hany : (db.events.any fun e => e.id == db.nextEventId) = false := by
    rw [List.any_eq_false]
    intro e he
    have := h e he
    simp only [beq_iff_eq]
    omega
  simp only [create_event, eventInsert, reduceIte, hany, Bool.false_eq_true,
    if_false]
  rw [Nat.max_eq_right (Nat.le_succ _)]

theorem MsgFresh_of_MsgIdsSeq {db : DB} (h : MsgIdsSeq db) : MsgFresh db := by
  intro m hm
  have hmem : m.id ∈ db.messages.map (fun m => m.id) :=
    List.mem_map_of_mem _ hm
  rw [h.1, List.mem_range'_1] at hmem
  have h2 := h.2
  omega

theorem EvFresh_of_EvIdsSeq {db : DB} (h : EvIdsSeq db) : EvFresh db := by
  intro e he
  have hmem : e.id ∈ db.events.map (fun e => e.id) :=
    List.mem_map_of_mem _ he
  rw [h.1, List.mem_range'_1] at hmem
  have h2 := h.2
  omega

/-- Invocations that are not `create_message` leave the Message table and its
allocator alone. -/
theorem messages_step_nonMsg {ts : Timestamp} {op : Op} {db : DB}
    (h : isMsgOp op = false) :
    (step ts op db).messages = db.messages ∧
      (step ts op db).nextMessageId = db.nextMessageId := by
  unfold step
  rcases he : execOp ts op db with e | db2
  · exact ⟨rfl, rfl⟩
  · cases op with
    | inc n a =>
      have hf := increment_counter_ok_frame he
      exact ⟨hf.1, hf.2.2.1⟩
    | msg s c ch => simp [isMsgOp] at h
    | ev t s d =>
      have hf := create_event_ok_frame he
      exact ⟨hf.2.1, hf.2.2⟩
    | lifecycleInit =>
      simp only [execOp, init] at he
      injection he with h2
      rw [← h2]
      exact ⟨rfl, rfl⟩
    | lifecycleUpdate =>
      simp only [execOp, on_module_update] at he
      injection he with h2
      rw [← h2]
      exact ⟨rfl, rfl⟩

/-- Invocations that are not `create_event` leave the Event table and its
allocator alone. -/
theorem events_step_nonEv {ts : Timestamp} {op : Op} {db : DB}
    (h : isEvOp op = false) :
    (step ts op db).events = db.events ∧
      (step ts op db).nextEventId = db.nextEventId := by
  unfold step
  rcases he : execOp ts op db with e | db2
  · exact ⟨rfl, rfl⟩
  · cases op with
    | inc n a =>
      have hf := increment_counter_ok_frame he
      exact ⟨hf.2.1, hf.2.2.2⟩
    | msg s c ch =>
      have hf := create_message_ok_frame he
      exact ⟨hf.2.1, hf.2.2⟩
    | ev t s d => simp [isEvOp] at h
    | lifecycleInit =>
      simp only [execOp, init] at he
      injection he with h2
      rw [← h2]
      exact ⟨rfl, rfl⟩
    | lifecycleUpdate =>
      simp only [execOp, on_module_update] at he
      injection he with h2
      rw [← h2]
      exact ⟨rfl, rfl⟩

/-- One step preserves the Message-id sequence shape and grows the table by
one exactly on `create_message`. -/
theorem MsgIdsSeq_step {ts : Timestamp} {op : Op} {db : DB} (hm : MsgIdsSeq db) :
    MsgIdsSeq (step ts op db) ∧
      (step ts op db).messages.length =
        db.messages.length + (if isMsgOp op then 1 else 0) := by
  cases op with
  | msg s c ch =>
    have hfresh : MsgFresh db := MsgFresh_of_MsgIdsSeq hm
    have hok := create_message_fresh_ok hfresh ts s c ch
    have hstep : step ts (.msg s c ch) db = { db with
        messages := db.messages ++ [⟨db.nextMessageId, s, c, ch, ts⟩],
        nextMessageId := db.nextMessageId + 1 } := by
      simp only [step, execOp]
      rw [hok]
    rw [hstep]
    refine ⟨⟨?_, ?_⟩, ?_⟩
    · simp only [List.map_append, List.map_cons, List.map_nil, List.length_append,
        List.length_cons, List.length_nil]
      rw [hm.1, hm.2, List.range'_concat]
      simp [Nat.add_comm]
    · simp only [List.length_append, List.length_cons, List.length_nil]
      rw [hm.2]
    · simp [isMsgOp]
  | inc n a =>
    have hf := @messages_step_nonMsg ts (.inc n a) db rfl
    unfold MsgIdsSeq
    rw [hf.1, hf.2]
    exact ⟨hm, by simp [isMsgOp]⟩
  | ev t s d =>
    have hf := @messages_step_nonMsg ts (.ev t s d) db rfl
    unfold MsgIdsSeq
    rw [hf.1, hf.2]
    exact ⟨hm, by simp [isMsgOp]⟩
  | lifecycleInit =>
    have hf := @messages_step_nonMsg ts .lifecycleInit db rfl
    unfold MsgIdsSeq
    rw [hf.1, hf.2]
    exact ⟨hm, by simp [isMsgOp]⟩
  | lifecycleUpdate =>
    have hf := @messages_step_nonMsg ts .lifecycleUpdate db rfl
    unfold MsgIdsSeq
    rw [hf.1, hf.2]
    exact ⟨hm, by simp [isMsgOp]⟩

/-- One step preserves the Event-id sequence shape and grows the table by
one exactly on `create_event`. -/
theorem EvIdsSeq_step {ts : Timestamp} {op : Op} {db : DB} (hm : EvIdsSeq db) :
    EvIdsSeq (step ts op db) ∧
      (step ts op db).events.length =
        db.events.length + (if isEvOp op then 1 else 0) := by
  cases op with
  | ev t s d =>
    have hfresh : EvFresh db := EvFresh_of_EvIdsSeq hm
    have hok := create_event_fresh_ok hfresh ts t s d
    have hstep : step ts (.ev t s d) db = { db with
        events := db.events ++ [⟨db.nextEventId, t, s, d, ts⟩],
        nextEventId := db.nextEventId + 1 } := by
      simp only [step, execOp]
      rw [hok]
    rw [hstep]
    refine ⟨⟨?_, ?_⟩, ?_⟩
    · simp only [List.map_append, List.map_cons, List.map_nil, List.length_append,
        List.length_cons, List.length_nil]
      rw [hm.1, hm.2, List.range'_concat]
      simp [Nat.add_comm]
    · simp only [List.length_append, List.length_cons, List.length_nil]
      rw [hm.2]
    · simp [isEvOp]
  | inc n a =>
    have hf := @events_step_nonEv ts (.inc n a) db rfl
    unfold EvIdsSeq
    rw [hf.1, hf.2]
    exact ⟨hm, by simp [isEvOp]⟩
  | msg s c ch =>
    have hf := @events_step_nonEv ts (.msg s c ch) db rfl
    unfold EvIdsSeq
    rw [hf.1, hf.2]
    exact ⟨hm, by simp [isEvOp]⟩
  | lifecycleInit =>
    have hf := @events_step_nonEv ts .lifecycleInit db rfl
    unfold EvIdsSeq
    rw [hf.1, hf.2]
    exact ⟨hm, by simp [isEvOp]⟩
  | lifecycleUpdate =>
    have hf := @events_step_nonEv ts .lifecycleUpdate db rfl
    unfold EvIdsSeq
    rw [hf.1, hf.2]
    exact ⟨hm, by simp [isEvOp]⟩

/-- Running any sequence keeps both id sequences in shape and grows each
table by exactly its number of creation calls. -/
theorem execOps_ids : ∀ (ops : List (Timestamp × Op)) (db : DB),
    MsgIdsSeq db → EvIdsSeq db →
    MsgIdsSeq (execOps ops db) ∧ EvIdsSeq (execOps ops db) ∧
      (execOps ops db).messages.length = db.messages.length + countMsg ops ∧
      (execOps ops db).events.length = db.events.length + countEv ops
  | [], db, hm, he => ⟨hm, he, by simp [execOps, countMsg, countEv], by
      simp [execOps, countMsg, countEv]⟩
  | (ts, op) :: rest, db, hm, he => by
    have hms := @MsgIdsSeq_step ts op db hm
    have hes := @EvIdsSeq_step ts op db he
    have IH := execOps_ids rest (step ts op db) hms.1 hes.1
    rw [show execOps ((ts, op) :: rest) db = execOps rest (step ts op db) from rfl]
    refine ⟨IH.1, IH.2.1, ?_, ?_⟩
    · rw [IH.2.2.1, hms.2]
      unfold countMsg
      rw [List.countP_cons]
      dsimp only
      omega
    · rw [IH.2.2.2, hes.2]
      unfold countEv
      rw [List.countP_cons]
      dsimp only
      omega

/-! ## Claim theorems -/

theorem sumAmounts_replicate_inc (n : String) (ts : Timestamp) (N : Nat) :
    sumAmounts n (List.replicate N (ts, Op.inc n 1)) = N := by
  induction N with
  | zero => rfl
  | succ k ih =>
    rw [List.replicate_succ, sumAmounts_cons, ih]
    have hc : incContribution n (ts, Op.inc n 1) = 1 := by
      simp [incContribution]
    rw [hc]
    push_cast
    ring

/-- C1 (counterexample): two `increment_counter` calls on the same fresh
counter with i64 amounts `2^63 - 1` and `1` leave final value `-2^63`
(two's-complement wrap), not the mathematical sum `2^63`: the claim as
stated fails at this input. -/
theorem spec_increment_sum_cex :
    counterValue (execOps [(0, .inc "x" (2 ^ 63 - 1)), (1, .inc "x" 1)] initDB) "x"
        = some (-(2 ^ 63)) ∧
      counterValue (execOps [(0, .inc "x" (2 ^ 63 - 1)), (1, .inc "x" 1)] initDB) "x"
        ≠ some ((2 ^ 63 - 1) + 1) := by
  constructor
  · rfl
  · intro h
    have h2 : (-(2 ^ 63) : Int) = (2 ^ 63 - 1) + 1 := by
      have h1 : counterValue (execOps [(0, .inc "x" (2 ^ 63 - 1)), (1, .inc "x" 1)]
          initDB) "x" = some (-(2 ^ 63)) := rfl
      exact Option.some.inj (h1 ▸ h)
    norm_num at h2

/-- C1 (amended): for every sequence of invocations on a well-formed state
with no counter named `n`, containing at least one increment of `n`, the
final value for `n` is the two's-complement wrap `wrap64` of the sum of all
amounts applied to `n` — equal to the plain sum whenever that sum is in the
i64 range — and the result is invariant under permuting the sequence. -/
theorem spec_increment_sum_wrapped (db : DB) (n : String)
    (ops : List (Timestamp × Op)) (hwf : CounterWF db)
    (h0 : counterValue db n = none) (ha : AmountsOk ops)
    (hi : hasInc n ops = true) :
    counterValue (execOps ops db) n = some (wrap64 (sumAmounts n ops)) ∧
      ∀ ops2, ops.Perm ops2 →
        counterValue (execOps ops2 db) n = some (wrap64 (sumAmounts n ops)) := by
  have main : ∀ ops2, ops.Perm ops2 →
      counterValue (execOps ops2 db) n = some (wrap64 (sumAmounts n ops)) := by
    intro ops2 hp
    have h1 := execOps_counterValue n ops2 db hwf (AmountsOk_perm hp ha)
    rw [h0] at h1
    simp only at h1
    rw [← hasInc_perm hp n, hi] at h1
    simp only [reduceIte] at h1
    rw [h1, ← sumAmounts_perm hp n]
  exact ⟨main ops (List.Perm.refl ops), main⟩

/-- C1 witness: applying the amended theorem to a concrete two-increment
sequence on the empty database. -/
theorem spec_increment_sum_wrapped_witness :
    counterValue (execOps [(0, .inc "x" 2), (1, .inc "x" 3)] initDB) "x"
      = some (wrap64 (sumAmounts "x" [(0, .inc "x" 2), (1, .inc "x" 3)])) :=
  (spec_increment_sum_wrapped initDB "x" [(0, .inc "x" 2), (1, .inc "x" 3)]
    (by decide) (by decide)
    (by
      intro p hp m a hpe
      rcases List.mem_cons.mp hp with hp | hp
      · rw [hp] at hpe
        injection hpe with h1 h2
        rw [← h2]
        decide
      · rw [List.mem_singleton] at hp
        rw [hp] at hpe
        injection hpe with h1 h2
        rw [← h2]
        decide)
    (by decide)).1

/-- C6 (counterexample): a single serialized `+1` increment on a counter
holding `2^63 - 1` yields `-2^63`, not `v + 1`: the claim as stated fails
at this input. -/
theorem spec_lost_update_cex :
    counterValue (execOps (List.replicate 1 (0, Op.inc "hits" 1))
        ⟨[⟨"hits", 2 ^ 63 - 1, 0⟩], [], [], 1, 1⟩) "hits" = some (-(2 ^ 63)) ∧
      counterValue (execOps (List.replicate 1 (0, Op.inc "hits" 1))
        ⟨[⟨"hits", 2 ^ 63 - 1, 0⟩], [], [], 1, 1⟩) "hits"
        ≠ some ((2 ^ 63 - 1) + 1) := by
  constructor
  · rfl
  · intro h
    have h1 : counterValue (execOps (List.replicate 1 (0, Op.inc "hits" 1))
        ⟨[⟨"hits", 2 ^ 63 - 1, 0⟩], [], [], 1, 1⟩) "hits" = some (-(2 ^ 63)) := rfl
    have h2 : (-(2 ^ 63) : Int) = (2 ^ 63 - 1) + 1 := Option.some.inj (h1 ▸ h)
    norm_num at h2

/-- C6 (amended): N serialized `+1` increments on the counter named `n`
holding value `v` leave exactly `wrap64 (v + N)` — equal to `v + N` whenever
`v + N` is in the i64 range; under the executor's serializable contract no
increment is lost. -/
theorem spec_serialized_increments (N : Nat) (ts : Timestamp) (n : String)
    (v : Int) (db : DB) (hwf : CounterWF db) (hv : counterValue db n = some v) :
    counterValue (execOps (List.replicate N (ts, Op.inc n 1)) db) n
      = some (wrap64 (v + N)) := by
  have ha : AmountsOk (List.replicate N (ts, Op.inc n 1)) := by
    intro p hp m a hpe
    have hp2 := List.eq_of_mem_replicate hp
    rw [hp2] at hpe
    injection hpe with h1 h2
    rw [← h2]
    decide
  have h1 := execOps_counterValue n (List.replicate N (ts, Op.inc n 1)) db hwf ha
  rw [hv] at h1
  simp only at h1
  rw [h1, sumAmounts_replicate_inc]

/-- C6 witness: three serialized `+1` increments starting from value 5. -/
theorem spec_serialized_increments_witness :
    counterValue (execOps (List.replicate 3 (0, Op.inc "k" 1))
      ⟨[⟨"k", 5, 0⟩], [], [], 1, 1⟩) "k" = some (wrap64 (5 + (3 : Nat))) :=
  spec_serialized_increments 3 0 "k" 5 ⟨[⟨"k", 5, 0⟩], [], [], 1, 1⟩
    (by decide) (by decide)

/-- C2 (counterexample): with the existing row holding `2^63 - 1`, an
increment by 1 leaves value `-2^63`, not `v + amount`: the claim as stated
fails at this input. -/
theorem spec_upsert_value_cex :
    counterValue (step 7 (.inc "visits" 1) ⟨[⟨"visits", 2 ^ 63 - 1, 5⟩], [], [], 1, 1⟩)
        "visits" = some (-(2 ^ 63)) ∧
      counterValue (step 7 (.inc "visits" 1) ⟨[⟨"visits", 2 ^ 63 - 1, 5⟩], [], [], 1, 1⟩)
        "visits" ≠ some ((2 ^ 63 - 1) + 1) := by
  constructor
  · rfl
  · intro h
    have h1 : counterValue (step 7 (.inc "visits" 1)
        ⟨[⟨"visits", 2 ^ 63 - 1, 5⟩], [], [], 1, 1⟩) "visits" = some (-(2 ^ 63)) := rfl
    have h2 : (-(2 ^ 63) : Int) = (2 ^ 63 - 1) + 1 := Option.some.inj (h1 ▸ h)
    norm_num at h2

/-- C2 (amended): on a table with at most one row per name, an increment on
an existing row `⟨n, v, t0⟩` commits, deletes the old row and inserts, under
the same key, the single row `⟨n, wrap64 (v + amount), ts⟩` — value equal to
`v + amount` whenever that sum is in the i64 range — with `last_updated` the
bound timestamp; on an absent key it commits a fresh row with
`value = amount`. -/
theorem spec_upsert_replace (ts : Timestamp) (n : String) (a : Int) (db : DB)
    (h : AtMostOne db.counters) :
    (∀ v t0, (⟨n, v, t0⟩ : Counter) ∈ db.counters →
      ∃ db2, increment_counter ts n a db = .ok db2 ∧
        db2.counters = counterDelete db.counters n ++ [⟨n, wrap64 (v + a), ts⟩] ∧
        counterRows db2 n = [⟨n, wrap64 (v + a), ts⟩]) ∧
    ((∀ c ∈ db.counters, c.name ≠ n) →
      ∃ db2, increment_counter ts n a db = .ok db2 ∧
        db2.counters = db.counters ++ [⟨n, a, ts⟩] ∧
        counterRows db2 n = [⟨n, a, ts⟩]) := by
  constructor
  · intro v t0 hmem
    have hf : db.counters.find? (fun x => x.name == n) = some ⟨n, v, t0⟩ :=
      find?_of_mem_nodup h hmem
    refine ⟨_, increment_counter_found hf ts a, rfl, ?_⟩
    unfold counterRows
    dsimp only
    rw [List.filter_append, filter_counterDelete_self]
    simp [List.filter]
  · intro hnone
    have hf : db.counters.find? (fun c => c.name == n) = none := by
      rw [List.find?_eq_none]
      intro c hc
      simp [hnone c hc]
    refine ⟨_, increment_counter_notfound hf ts a, rfl, ?_⟩
    unfold counterRows
    dsimp only
    rw [List.filter_append]
    have hnil : db.counters.filter (fun c => c.name == n) = [] := by
      rw [List.filter_eq_nil_iff]
      intro c hc
      simp [hnone c hc]
    rw [hnil]
    simp [List.filter]

/-- C2 witness: incrementing an existing `visits = 5` row by `-2` at
timestamp 9. -/
theorem spec_upsert_replace_witness :
    ∃ db2, increment_counter 9 "visits" (-2) ⟨[⟨"visits", 5, 0⟩], [], [], 1, 1⟩
        = .ok db2 ∧
      db2.counters = counterDelete [⟨"visits", 5, 0⟩] "visits" ++
        [⟨"visits", wrap64 (5 + -2), 9⟩] ∧
      counterRows db2 "visits" = [⟨"visits", wrap64 (5 + -2), 9⟩] :=
  (spec_upsert_replace 9 "visits" (-2) ⟨[⟨"visits", 5, 0⟩], [], [], 1, 1⟩
    (by decide)).1 5 0 (by decide)

/-- C3 (counterexample): with the row holding the i64 maximum, incrementing
by 1 does not abort with `CounterOverflow` — it commits — and the pre-call
value is no longer readable: the claim as stated fails at this input. -/
theorem spec_overflow_no_abort_cex :
    increment_counter 5 "visits" 1 ⟨[⟨"visits", 2 ^ 63 - 1, 0⟩], [], [], 1, 1⟩
        = .ok ⟨[⟨"visits", -(2 ^ 63), 5⟩], [], [], 1, 1⟩ ∧
      counterValue (step 5 (.inc "visits" 1) ⟨[⟨"visits", 2 ^ 63 - 1, 0⟩], [], [], 1, 1⟩)
        "visits" ≠ some (2 ^ 63 - 1) := by
  constructor
  · rfl
  · intro h
    have h1 : counterValue (step 5 (.inc "visits" 1)
        ⟨[⟨"visits", 2 ^ 63 - 1, 0⟩], [], [], 1, 1⟩) "visits" = some (-(2 ^ 63)) := rfl
    have h2 : (-(2 ^ 63) : Int) = 2 ^ 63 - 1 := Option.some.inj (h1 ▸ h)
    norm_num at h2

/-- C3 (amended): when `v + amount` overflows the i64 range the call still
commits — the code has no `CounterOverflow` path — and the row for `n` now
holds the wrapped value, which differs from the mathematical sum. -/
theorem spec_overflow_wraps (ts : Timestamp) (n : String) (a v : Int)
    (t0 : Timestamp) (db : DB) (h : AtMostOne db.counters)
    (hmem : (⟨n, v, t0⟩ : Counter) ∈ db.counters) (hof : ¬ InRange64 (v + a)) :
    ∃ db2, increment_counter ts n a db = .ok db2 ∧
      counterValue db2 n = some (wrap64 (v + a)) ∧ wrap64 (v + a) ≠ v + a := by
  have hf : db.counters.find? (fun x => x.name == n) = some ⟨n, v, t0⟩ :=
    find?_of_mem_nodup h hmem
  have hok := increment_counter_found hf ts a
  have hstep : step ts (.inc n a) db = { db with
      counters := counterDelete db.counters n ++ [⟨n, wrap64 (v + a), ts⟩] } := by
    simp only [step, execOp, hok]
  have hv2 := counterValue_step_inc_found hf ts a
  rw [hstep] at hv2
  exact ⟨_, hok, hv2, wrap64_ne_self hof⟩

/-- C3 witness: the amended theorem at the concrete overflowing input
`v = 2^63 - 1`, `amount = 2`. -/
theorem spec_overflow_wraps_witness :
    ∃ db2, increment_counter 3 "w" 2 ⟨[⟨"w", 2 ^ 63 - 1, 0⟩], [], [], 1, 1⟩
        = .ok db2 ∧
      counterValue db2 "w" = some (wrap64 ((2 ^ 63 - 1) + 2)) ∧
      wrap64 ((2 ^ 63 - 1) + 2) ≠ (2 ^ 63 - 1) + 2 :=
  spec_overflow_wraps 3 "w" 2 (2 ^ 63 - 1) 0 ⟨[⟨"w", 2 ^ 63 - 1, 0⟩], [], [], 1, 1⟩
    (by decide) (by decide) (by decide)

/-- C9: a zero-amount increment on an existing row still deletes and
reinserts it — the value is unchanged but `last_updated` becomes the new
invocation's bound timestamp, so the zero increment is observable through
the timestamp field. -/
theorem spec_zero_increment_timestamp (ts : Timestamp) (n : String) (v : Int)
    (t0 : Timestamp) (db : DB) (h : AtMostOne db.counters)
    (hmem : (⟨n, v, t0⟩ : Counter) ∈ db.counters) (hv : InRange64 v) :
    ∃ db2, increment_counter ts n 0 db = .ok db2 ∧
      db2.counters = counterDelete db.counters n ++ [⟨n, v, ts⟩] ∧
      counterRows db2 n = [⟨n, v, ts⟩] := by
  have hf : db.counters.find? (fun x => x.name == n) = some ⟨n, v, t0⟩ :=
    find?_of_mem_nodup h hmem
  have hok := increment_counter_found hf ts 0
  have hw : wrap64 ((⟨n, v, t0⟩ : Counter).value + 0) = v := by
    dsimp only
    rw [add_zero, wrap64_eq_self hv]
  rw [hw] at hok
  refine ⟨_, hok, rfl, ?_⟩
  unfold counterRows
  dsimp only
  rw [List.filter_append, filter_counterDelete_self]
  simp [List.filter]

/-- C9 witness: a zero increment of `kk = 7` at timestamp 4. -/
theorem spec_zero_increment_timestamp_witness :
    ∃ db2, increment_counter 4 "kk" 0 ⟨[⟨"kk", 7, 1⟩], [], [], 1, 1⟩ = .ok db2 ∧
      db2.counters = counterDelete [⟨"kk", 7, 1⟩] "kk" ++ [⟨"kk", 7, 4⟩] ∧
      counterRows db2 "kk" = [⟨"kk", 7, 4⟩] :=
  spec_zero_increment_timestamp 4 "kk" 7 1 ⟨[⟨"kk", 7, 1⟩], [], [], 1, 1⟩
    (by decide) (by decide) (by decide)

/-- C4: every reducer invocation preserves the at-most-one-live-row-per-name
invariant of the Counter table, and an `increment_counter` call leaves
exactly one resulting row for the incremented key. -/
theorem spec_single_row_invariant (ts : Timestamp) (op : Op) (db : DB)
    (h : AtMostOne db.counters) :
    AtMostOne (step ts op db).counters ∧
      ∀ n a, op = Op.inc n a → (counterRows (step ts op db) n).length = 1 := by
  constructor
  · cases op with
    | inc n a => exact AtMostOne_step_inc h ts a
    | msg s c ch =>
      rw [counters_step_nonInc (by simp)]
      exact h
    | ev t s d =>
      rw [counters_step_nonInc (by simp)]
      exact h
    | lifecycleInit =>
      rw [counters_step_nonInc (by simp)]
      exact h
    | lifecycleUpdate =>
      rw [counters_step_nonInc (by simp)]
      exact h
  · rintro n a rfl
    rcases hf : db.counters.find? (fun c => c.name == n) with _ | c
    · have hok := increment_counter_notfound hf ts a
      have hstep : step ts (.inc n a) db =
          { db with counters := db.counters ++ [⟨n, a, ts⟩] } := by
        simp only [step, execOp, hok]
      rw [hstep]
      unfold counterRows
      dsimp only
      rw [List.filter_append]
      have hnil : db.counters.filter (fun c => c.name == n) = [] := by
        rw [List.filter_eq_nil_iff]
        intro c hc
        exact List.find?_eq_none.mp hf c hc
      rw [hnil]
      simp [List.filter]
    · have hok := increment_counter_found hf ts a
      have hstep : step ts (.inc n a) db = { db with
          counters := counterDelete db.counters n ++
            [⟨n, wrap64 (c.value + a), ts⟩] } := by
        simp only [step, execOp, hok]
      rw [hstep]
      unfold counterRows
      dsimp only
      rw [List.filter_append, filter_counterDelete_self]
      simp [List.filter]

/-- C4 witness: one increment on the empty database. -/
theorem spec_single_row_invariant_witness :
    AtMostOne (step 0 (.inc "a" 1) initDB).counters ∧
      ∀ n a, Op.inc "a" 1 = Op.inc n a →
        (counterRows (step 0 (.inc "a" 1) initDB) n).length = 1 :=
  spec_single_row_invariant 0 (.inc "a" 1) initDB (by decide)

/-- C5: for every sequence of invocations from the empty database, the
Message-table ids are exactly `1, 2, ..., countMsg` in creation order and the
Event-table ids exactly `1, 2, ..., countEv` — so each table's ids start at
1, are strictly increasing in creation order, are never reused, and the two
sequences are independent of interleaved calls on the other table. -/
theorem spec_ids_sequential (ops : List (Timestamp × Op)) :
    (execOps ops initDB).messages.map (fun m => m.id)
        = List.range' 1 (countMsg ops) ∧
      (execOps ops initDB).events.map (fun e => e.id)
        = List.range' 1 (countEv ops) := by
  have h0m : MsgIdsSeq initDB := ⟨rfl, rfl⟩
  have h0e : EvIdsSeq initDB := ⟨rfl, rfl⟩
  have h := execOps_ids ops initDB h0m h0e
  constructor
  · rw [h.1.1, h.2.2.1]
    simp [initDB]
  · rw [h.2.1.1, h.2.2.2]
    simp [initDB]

/-- C7: under id freshness, inserting through `create_message` or
`create_event` and then scanning yields a row equal to the inserted one in
every field except the auto-assigned id. -/
theorem spec_roundtrip_scan (ts : Timestamp) (s c ch t sr d : String) (db : DB)
    (hm : MsgFresh db) (he : EvFresh db) :
    (∃ db2, create_message ts s c ch db = .ok db2 ∧
      ∃ m ∈ db2.messages, m.sender = s ∧ m.content = c ∧ m.channel = ch ∧
        m.timestamp = ts) ∧
    (∃ db3, create_event ts t sr d db = .ok db3 ∧
      ∃ e ∈ db3.events, e.event_type = t ∧ e.source = sr ∧ e.data = d ∧
        e.timestamp = ts) := by
  refine ⟨⟨_, create_message_fresh_ok hm ts s c ch,
      ⟨db.nextMessageId, s, c, ch, ts⟩, ?_, rfl, rfl, rfl, rfl⟩,
    ⟨_, create_event_fresh_ok he ts t sr d,
      ⟨db.nextEventId, t, sr, d, ts⟩, ?_, rfl, rfl, rfl, rfl⟩⟩
  · exact List.mem_append_right _ (List.mem_cons_self _ _)
  · exact List.mem_append_right _ (List.mem_cons_self _ _)

/-- C7 witness: the round trip on the empty database with concrete
strings. -/
theorem spec_roundtrip_scan_witness :
    (∃ db2, create_message 2 "alice" "hi" "general" initDB = .ok db2 ∧
      ∃ m ∈ db2.messages, m.sender = "alice" ∧ m.content = "hi" ∧
        m.channel = "general" ∧ m.timestamp = 2) ∧
    (∃ db3, create_event 2 "click" "ui" "x" initDB = .ok db3 ∧
      ∃ e ∈ db3.events, e.event_type = "click" ∧ e.source = "ui" ∧
        e.data = "x" ∧ e.timestamp = 2) :=
  spec_roundtrip_scan 2 "alice" "hi" "general" "click" "ui" "x" initDB
    (by decide) (by decide)

/-- C8: on a table with at most one live row per name, the scan-plus-filter
lookup `increment_counter` performs equals the point lookup by primary key:
the scan-based implementation refines the specified point-lookup step. -/
theorem spec_scan_point_lookup_equiv (tbl : List Counter) (n : String)
    (h : AtMostOne tbl) :
    tbl.find? (fun c => c.name == n) = counterFind tbl n := by
  induction tbl with
  | nil => rfl
  | cons hd tl ih =>
    unfold AtMostOne at h
    rw [List.map_cons, List.nodup_cons] at h
    by_cases hhd : hd.name = n
    · rw [List.find?_cons_of_pos _ (by simp [hhd])]
      unfold counterFind
      rw [List.filter_cons_of_pos (by simp [hhd])]
      have hnil : tl.filter (fun c => c.name == n) = [] := by
        rw [List.filter_eq_nil_iff]
        intro c hc hcn
        rw [beq_iff_eq] at hcn
        exact h.1 ((hcn.trans hhd.symm) ▸ List.mem_map_of_mem (fun x => x.name) hc)
      rw [hnil]
    · rw [List.find?_cons_of_neg _ (by simp [hhd])]
      unfold counterFind
      rw [List.filter_cons_of_neg (by simp [hhd])]
      exact ih h.2

/-- C8 witness: scan lookup and point lookup agree on a concrete two-row
table. -/
theorem spec_scan_point_lookup_equiv_witness :
    ([⟨"z", 1, 0⟩, ⟨"y", 2, 0⟩] : List Counter).find? (fun c => c.name == "z")
      = counterFind [⟨"z", 1, 0⟩, ⟨"y", 2, 0⟩] "z" :=
  spec_scan_point_lookup_equiv [⟨"z", 1, 0⟩, ⟨"y", 2, 0⟩] "z" (by decide)

/-- C10: `create_message` and `create_event` validate nothing: for every
argument strings (including empty ones), under id freshness the call
commits, appending exactly one row carrying the strings verbatim and the
bound timestamp, and never returns an error. -/
theorem spec_create_no_validation (ts : Timestamp) (s c ch t sr d : String)
    (db : DB) (hm : MsgFresh db) (he : EvFresh db) :
    create_message ts s c ch db = .ok { db with
        messages := db.messages ++ [⟨db.nextMessageId, s, c, ch, ts⟩],
        nextMessageId := db.nextMessageId + 1 } ∧
      create_event ts t sr d db = .ok { db with
        events := db.events ++ [⟨db.nextEventId, t, sr, d, ts⟩],
        nextEventId := db.nextEventId + 1 } :=
  ⟨create_message_fresh_ok hm ts s c ch, create_event_fresh_ok he ts t sr d⟩

/-- C10 witness: both creation reducers succeed with all-empty strings on
the empty database. -/
theorem spec_create_no_validation_witness :
    create_message 0 "" "" "" initDB = .ok { initDB with
        messages := initDB.messages ++ [⟨initDB.nextMessageId, "", "", "", 0⟩],
        nextMessageId := initDB.nextMessageId + 1 } ∧
      create_event 0 "" "" "" initDB = .ok { initDB with
        events := initDB.events ++ [⟨initDB.nextEventId, "", "", "", 0⟩],
        nextEventId := initDB.nextEventId + 1 } :=
  spec_create_no_validation 0 "" "" "" "" "" "" initDB (by decide) (by decide)

end SpacetimeBench
